import Mathlib

/-!
Verification of the tree-image pipeline (tree_image_pipeline.py, image_analyzer.py).

The pipeline's data model is embedded shallowly:
  * a blob container is an association list from blob names to byte lists;
  * the local filesystem seen by the download step is a set of directories
    plus an association list of files;
  * the vision service and the failure behaviour of storage calls are
    parameters (a classifier oracle and Boolean failure oracles), so that a
    raised exception is modelled by an `Except` result that carries the
    storage state at the moment the exception propagates.
String primitives used by the Python code (`str.lower`, `in`, `startswith`,
`os.path.splitext`, `os.path.basename`, `os.path.join`) are modelled
character-by-character below.
-/

/-- Model of `str.lower` on one character (ASCII range, as the pipeline only
compares ASCII extensions, tags and keywords). -/
def charLower (c : Char) : Char :=
  if 65 ≤ c.toNat ∧ c.toNat ≤ 90 then Char.ofNat (c.toNat + 32) else c

/-- Model of Python `str.lower`. -/
def strLower (s : String) : String :=
  String.mk (s.data.map charLower)

/-- `listStarts needle hay` is true when `hay` begins with `needle`. -/
def listStarts : List Char → List Char → Bool
  | [], _ => true
  | _ :: _, [] => false
  | a :: ns, b :: hs => a == b && listStarts ns hs

/-- Model of Python `s.startswith(pre)`. -/
def strStarts (s pre : String) : Bool :=
  listStarts pre.data s.data

/-- `listIsSubstr needle hay`: `needle` occurs contiguously in `hay`
(the semantics of Python `needle in hay` on strings). -/
def listIsSubstr (n : List Char) : List Char → Bool
  | [] => listStarts n []
  | c :: t => listStarts n (c :: t) || listIsSubstr n t

/-- Model of Python `needle in hay` for strings. -/
def strIsSubstr (needle hay : String) : Bool :=
  listIsSubstr needle.data hay.data

/-- Characters of `os.path.basename`: everything after the last `/`. -/
def basenameChars (l : List Char) : List Char :=
  l.foldl (fun acc c => if c == '/' then [] else acc ++ [c]) []

/-- Model of `os.path.basename`. -/
def basename (s : String) : String :=
  String.mk (basenameChars s.data)

/-- Index of the last `.` in a character list, if any. -/
def lastDotIdx (l : List Char) : Option Nat :=
  (l.foldl (fun p c => (p.1 + 1, if c == '.' then some p.1 else p.2))
    ((0 : Nat), (none : Option Nat))).2

/-- Extension part of `os.path.splitext` restricted to a basename: the suffix
from the last dot, unless every character before that dot is itself a dot
(CPython's leading-dot rule, under which e.g. `".mp4"` has no extension). -/
def extChars (b : List Char) : List Char :=
  match lastDotIdx b with
  | none => []
  | some i => if (b.take i).any (fun c => c != '.') then b.drop i else []

/-- Model of `os.path.splitext(p)[1]`. -/
def splitext_ext (p : String) : String :=
  String.mk (extChars (basenameChars p.data))

/-- Whether a path ends with `/` (used by `os.path.join`). -/
def strEndsWithSlash (d : String) : Bool :=
  match d.data.getLast? with
  | some c => c == '/'
  | none => false

/-- Model of `os.path.join(d, f)` (POSIX rules). -/
def pathJoin (d f : String) : String :=
  if strStarts f "/" then f
  else if d == "" || strEndsWithSlash d then d ++ f
  else d ++ "/" ++ f

-- `tree_image_pipeline.py` constants.

/-- `TREE_FOLDER = 'tree-pictures/'`. -/
def TREE_FOLDER : String := "tree-pictures/"

/-- `VIDEO_EXTENSIONS = {'.mp4', '.mov', '.avi', '.mkv', '.webm'}`. -/
def VIDEO_EXTENSIONS : List String := [".mp4", ".mov", ".avi", ".mkv", ".webm"]

/-- `is_video(filename)`: the extension, lowercased, is a video extension. -/
def is_video (filename : String) : Bool :=
  VIDEO_EXTENSIONS.contains (strLower (splitext_ext filename))

-- Storage model: association lists from names to byte lists.

/-- Blob contents (and local file contents) as byte lists. -/
abbrev Bytes := List Nat

/-- A blob container (also reused for local file maps): name/content pairs. -/
abbrev Container := List (String × Bytes)

/-- Look a name up in an association list. -/
def alLookup : Container → String → Option Bytes
  | [], _ => none
  | (k, v) :: rest, n => if k == n then some v else alLookup rest n

/-- Insert or overwrite a name in an association list (Azure's
`upload_blob(..., overwrite=True)` / rewriting a local file). -/
def alUpsert : Container → String → Bytes → Container
  | [], n, v => [(n, v)]
  | (k, w) :: rest, n, v =>
    if k == n then (n, v) :: rest else (k, w) :: alUpsert rest n v

/-- Delete a name from an association list (`delete_blob` / `os.remove`). -/
def alRemove (l : Container) (n : String) : Container :=
  l.filter (fun e => e.1 != n)

/-- A failure oracle that never fails (every storage call succeeds). -/
def noFail : String → Bool := fun _ => false

-- image_analyzer.py

/-- The fields of the Azure vision response that `analyze_image_file` reads:
tag names, detected-object labels and caption texts. -/
structure VisionAnalysis where
  tags : List String
  objects : List String
  captions : List String

/-- `analyze_image_file(image_path, search_term)`: calls the vision service
inside a `try` that covers the whole body; on success returns the tag names
lowercased (every return path returns `tags`), and on any exception prints a
diagnostic and returns `[]`. The service is a parameter mapping the local
path and search term to either an error or a `VisionAnalysis`. -/
def analyze_image_file (service : String → String → Except String VisionAnalysis)
    (image_path : String) (search_term : String) : List String :=
  match service image_path search_term with
  | Except.error _ => []
  | Except.ok analysis => analysis.tags.map strLower

-- tree_image_pipeline.py steps

/-- `upload_local_images(local_dir)`: for each directory entry
`(name, is-regular-file, contents)`, upload regular non-video files under
their base filename with `overwrite=True`. -/
def upload_local_images : List (String × Bool × Bytes) → Container → Container
  | [], c => c
  | (fname, isfile, contents) :: rest, c =>
    upload_local_images rest
      (if isfile && !(is_video fname) then alUpsert c fname contents else c)

/-- Loop body of `clean_blob_storage` over the snapshotted blob-name list.
`deleteFails n = true` models `delete_blob(n)` raising; the exception
propagates, carrying the container state reached so far. -/
def cleanGo (deleteFails : String → Bool) :
    List String → Container → Except (String × Container) Container
  | [], c => Except.ok c
  | n :: rest, c =>
    if strStarts n TREE_FOLDER then cleanGo deleteFails rest c
    else if deleteFails n then Except.error (n, c)
    else cleanGo deleteFails rest (alRemove c n)

/-- `clean_blob_storage()`: list the blobs, then delete every blob whose name
does not start with `TREE_FOLDER`. -/
def clean_blob_storage (deleteFails : String → Bool) (cont : Container) :
    Except (String × Container) Container :=
  cleanGo deleteFails (cont.map Prod.fst) cont

/-- `move_blob_to_tree_folder(blob_name)`: server-side copy of the source
blob to `TREE_FOLDER + basename(blob_name)`. `copyFails` models
`start_copy_from_url` raising; copying a missing source also raises. -/
def move_blob_to_tree_folder (copyFails : String → Bool) (blob_name : String)
    (c : Container) : Except String Container :=
  let tree_blob_name := TREE_FOLDER ++ basename blob_name
  if copyFails blob_name then Except.error blob_name
  else
    match alLookup c blob_name with
    | some contents => Except.ok (alUpsert c tree_blob_name contents)
    | none => Except.error blob_name

/-- `tags and any(kw in tag.lower() for tag in tags for kw in keywords)`. -/
def tagsMatch (keywords tags : List String) : Bool :=
  (!tags.isEmpty) &&
    tags.any (fun tag => keywords.any (fun kw => strIsSubstr kw (strLower tag)))

/-- The `for keyword in keywords` loop of `analyze_and_move_blobs`: classify
the temp file against each keyword in turn; on the first iteration whose
returned tags satisfy `tagsMatch` (against the full keyword list), move the
blob and stop. A move failure propagates. -/
def analyzeLoop (service : String → String → Except String VisionAnalysis)
    (copyFails : String → Bool) (keywords : List String)
    (temp_path blob_name : String) (c : Container) :
    List String → Except String (Container × Bool)
  | [] => Except.ok (c, false)
  | keyword :: rest =>
    let tags := analyze_image_file service temp_path keyword
    if tagsMatch keywords tags then
      match move_blob_to_tree_folder copyFails blob_name c with
      | Except.error e => Except.error e
      | Except.ok c2 => Except.ok (c2, true)
    else analyzeLoop service copyFails keywords temp_path blob_name c rest

/-- Pipeline state during `analyze_and_move_blobs`: the blob container plus
the local temporary files currently on disk. -/
structure PipeState where
  container : Container
  tempFiles : Container

/-- One iteration of the blob loop in `analyze_and_move_blobs`: skip videos;
otherwise `open(temp_path, "wb")` creates the temp file, the blob is
downloaded into it (`downloadFails` models `download_blob` raising after the
file was created), the keyword loop runs, and `os.remove(temp_path)` runs
last. There is no `try/finally`: an exception from the download or from the
move propagates and skips the removal. -/
def processBlob (service : String → String → Except String VisionAnalysis)
    (downloadFails copyFails : String → Bool) (keywords : List String)
    (blob_name : String) (st : PipeState) : Except (String × PipeState) PipeState :=
  if is_video blob_name then Except.ok st
  else
    let temp_path := "temp_" ++ basename blob_name
    if downloadFails blob_name then
      Except.error (blob_name, { st with tempFiles := alUpsert st.tempFiles temp_path [] })
    else
      match alLookup st.container blob_name with
      | none => Except.error (blob_name, { st with tempFiles := alUpsert st.tempFiles temp_path [] })
      | some contents =>
        let st2 : PipeState := { st with tempFiles := alUpsert st.tempFiles temp_path contents }
        match analyzeLoop service copyFails keywords temp_path blob_name st2.container keywords with
        | Except.error e => Except.error (e, st2)
        | Except.ok (c2, _found) =>
          Except.ok { container := c2, tempFiles := alRemove st2.tempFiles temp_path }

/-- The blob loop of `analyze_and_move_blobs` over the snapshotted list. -/
def analyzeGo (service : String → String → Except String VisionAnalysis)
    (downloadFails copyFails : String → Bool) (keywords : List String) :
    List String → PipeState → Except (String × PipeState) PipeState
  | [], st => Except.ok st
  | b :: rest, st =>
    match processBlob service downloadFails copyFails keywords b st with
    | Except.error e => Except.error e
    | Except.ok st2 => analyzeGo service downloadFails copyFails keywords rest st2

/-- `analyze_and_move_blobs(keywords)`: snapshot the blobs outside
`TREE_FOLDER`, then process each in turn. -/
def analyze_and_move_blobs (service : String → String → Except String VisionAnalysis)
    (downloadFails copyFails : String → Bool) (keywords : List String)
    (st : PipeState) : Except (String × PipeState) PipeState :=
  analyzeGo service downloadFails copyFails keywords
    ((st.container.map Prod.fst).filter (fun n => !(strStarts n TREE_FOLDER))) st

/-- The local filesystem seen by `download_tree_media`: existing directories
and files. -/
structure LocalFS where
  dirs : List String
  files : Container

/-- The download loop of `download_tree_media`: write each blob's bytes to
`os.path.join(local_dir, basename(name))`. -/
def downloadGo (local_dir : String) : List (String × Bytes) → LocalFS → LocalFS
  | [], fs => fs
  | (name, contents) :: rest, fs =>
    downloadGo local_dir rest
      { fs with files := alUpsert fs.files (pathJoin local_dir (basename name)) contents }

/-- `download_tree_media(local_dir)`: `os.makedirs(local_dir, exist_ok=True)`,
then download every blob whose name starts with `TREE_FOLDER`. -/
def download_tree_media (cont : Container) (local_dir : String) (fs : LocalFS) : LocalFS :=
  let fs1 : LocalFS :=
    { fs with dirs := if fs.dirs.contains local_dir then fs.dirs else local_dir :: fs.dirs }
  downloadGo local_dir (cont.filter (fun e => strStarts e.1 TREE_FOLDER)) fs1

example : is_video "test.mp4" = true := by decide
example : is_video "test.jpg" = false := by decide
example : is_video "clip.MP4" = true := by decide
example : is_video ".mp4" = false := by decide
example : strLower "TREE" = "tree" := by decide
example : basename "a/x.jpg" = "x.jpg" := by decide
example : strIsSubstr "tree" "palm tree forest" = true := by decide
example : strIsSubstr "" "abc" = true := by decide
example : pathJoin "out" "x.jpg" = "out/x.jpg" := by decide

/-! ### Association-list lemmas -/

theorem alLookup_upsert_self (l : Container) (k : String) (v : Bytes) :
    alLookup (alUpsert l k v) k = some v := by
  induction l with
  | nil => simp [alUpsert, alLookup]
  | cons e rest ih =>
    obtain ⟨k2, w⟩ := e
    by_cases h : k2 = k
    · subst h; simp [alUpsert, alLookup]
    · simp [alUpsert, alLookup, h, ih]

theorem alLookup_upsert_ne (l : Container) (k n : String) (v : Bytes) (h : k ≠ n) :
    alLookup (alUpsert l k v) n = alLookup l n := by
  induction l with
  | nil => simp [alUpsert, alLookup, h]
  | cons e rest ih =>
    obtain ⟨k2, w⟩ := e
    by_cases h2 : k2 = k
    · subst h2; simp [alUpsert, alLookup, h]
    · simp [alUpsert, alLookup, h2, ih]

theorem alLookup_remove_self (l : Container) (n : String) :
    alLookup (alRemove l n) n = none := by
  induction l with
  | nil => rfl
  | cons e rest ih =>
    obtain ⟨k, v⟩ := e
    by_cases h : k = n
    · subst h; simpa [alRemove, List.filter_cons] using ih
    · simpa [alRemove, List.filter_cons, h, alLookup] using ih

theorem alLookup_mem_fst (l : Container) (n : String) (h : n ∈ l.map Prod.fst) :
    ∃ v, alLookup l n = some v := by
  induction l with
  | nil => simp at h
  | cons e rest ih =>
    obtain ⟨k, v⟩ := e
    by_cases hk : k = n
    · subst hk; exact ⟨v, by simp [alLookup]⟩
    · have hmem : n ∈ rest.map Prod.fst := by
        rcases (by simpa using h : n = k ∨ n ∈ rest.map Prod.fst) with h1 | h1
        · exact absurd h1.symm hk
        · exact h1
      obtain ⟨w, hw⟩ := ih hmem
      exact ⟨w, by simp [alLookup, hk, hw]⟩

theorem alLookup_upsert_pres (l : Container) (k n : String) (v w : Bytes)
    (h : alLookup l n = some w) : ∃ w2, alLookup (alUpsert l k v) n = some w2 := by
  by_cases hk : k = n
  · subst hk; exact ⟨v, alLookup_upsert_self l k v⟩
  · exact ⟨w, by rw [alLookup_upsert_ne l k n v hk]; exact h⟩

/-! ### Character and string lemmas -/

theorem toNat_ofNat_valid (n : Nat) (h : n.isValidChar) : (Char.ofNat n).toNat = n := by
  unfold Char.ofNat
  rw [dif_pos h]
  rfl

theorem charLower_idem (c : Char) : charLower (charLower c) = charLower c := by
  unfold charLower
  by_cases h : 65 ≤ c.toNat ∧ c.toNat ≤ 90
  · rw [if_pos h]
    have hv : (c.toNat + 32).isValidChar := Or.inl (by omega)
    have ht : (Char.ofNat (c.toNat + 32)).toNat = c.toNat + 32 := toNat_ofNat_valid _ hv
    rw [if_neg (by rw [ht]; omega)]
  · rw [if_neg h, if_neg h]

theorem strLower_idem (s : String) : strLower (strLower s) = strLower s := by
  have h : ∀ l : List Char, (l.map charLower).map charLower = l.map charLower := by
    intro l
    induction l with
    | nil => rfl
    | cons c t ih => simp only [List.map_cons, charLower_idem, ih]
  show String.mk ((s.data.map charLower).map charLower) = String.mk (s.data.map charLower)
  rw [h]

theorem list_any_swap (K L : List String) (p : String → String → Bool) :
    (L.any fun t => K.any fun kw => p kw t) = (K.any fun kw => L.any fun t => p kw t) := by
  rw [Bool.eq_iff_iff]
  simp only [List.any_eq_true]
  constructor
  · rintro ⟨t, ht, kw, hkw, hp⟩
    exact ⟨kw, hkw, t, ht, hp⟩
  · rintro ⟨kw, hkw, t, ht, hp⟩
    exact ⟨t, ht, kw, hkw, hp⟩

theorem tagsMatch_map_lower (K L : List String) :
    tagsMatch K (L.map strLower) =
      (K.any fun kw => L.any fun t => strIsSubstr kw (strLower t)) := by
  rw [Bool.eq_iff_iff]
  unfold tagsMatch
  simp only [Bool.and_eq_true, List.any_eq_true, List.mem_map, Bool.not_eq_true',
    List.isEmpty_eq_false]
  constructor
  · rintro ⟨_, tag, ⟨t, ht, rfl⟩, kw, hkw, hp⟩
    rw [strLower_idem] at hp
    exact ⟨kw, hkw, t, ht, hp⟩
  · rintro ⟨kw, hkw, t, ht, hp⟩
    refine ⟨by simp [List.ne_nil_of_mem ht], strLower t, ⟨t, ht, rfl⟩, kw, hkw, ?_⟩
    rw [strLower_idem]
    exact hp

/-! ### Clean-step lemmas -/

theorem cleanGo_noFail (names : List String) :
    ∀ c : Container, cleanGo noFail names c =
      Except.ok (c.filter fun e => strStarts e.1 TREE_FOLDER || decide (e.1 ∉ names)) := by
  induction names with
  | nil =>
    intro c
    simp [cleanGo]
  | cons n rest ih =>
    intro c
    by_cases h : strStarts n TREE_FOLDER = true
    · rw [show cleanGo noFail (n :: rest) c = cleanGo noFail rest c by simp [cleanGo, h], ih]
      congr 1
      apply List.filter_congr
      intro e _
      by_cases he : e.1 = n
      · simp [he, h]
      · simp [List.mem_cons, he]
    · rw [show cleanGo noFail (n :: rest) c = cleanGo noFail rest (alRemove c n) by
        simp [cleanGo, h, noFail], ih, alRemove, List.filter_filter]
      congr 1
      apply List.filter_congr
      intro e _
      by_cases he : e.1 = n
      · simp [he, show strStarts n TREE_FOLDER = false by simpa using h]
      · simp [List.mem_cons, he]

/-! ### Analyze-step lemmas -/

theorem analyzeLoop_noFail_ok (service : String → String → Except String VisionAnalysis)
    (keywords : List String) (tp b : String) (c : Container) (contents : Bytes)
    (hc : alLookup c b = some contents) :
    ∀ rem : List String, ∃ c2 fnd,
      analyzeLoop service noFail keywords tp b c rem = Except.ok (c2, fnd) ∧
      (c2 = c ∨ c2 = alUpsert c (TREE_FOLDER ++ basename b) contents) := by
  intro rem
  induction rem with
  | nil => exact ⟨c, false, rfl, Or.inl rfl⟩
  | cons k rest ih =>
    by_cases hm : tagsMatch keywords (analyze_image_file service tp k) = true
    · refine ⟨alUpsert c (TREE_FOLDER ++ basename b) contents, true, ?_, Or.inr rfl⟩
      simp [analyzeLoop, hm, move_blob_to_tree_folder, noFail, hc]
    · obtain ⟨c2, fnd, hrun, hor⟩ := ih
      refine ⟨c2, fnd, ?_, hor⟩
      simp only [analyzeLoop, Bool.not_eq_true] at hm ⊢
      rw [hm]
      simpa using hrun

theorem processBlob_noFail_ok (service : String → String → Except String VisionAnalysis)
    (keywords : List String) (b : String) (st : PipeState) (contents : Bytes)
    (hc : alLookup st.container b = some contents) :
    ∃ st2, processBlob service noFail noFail keywords b st = Except.ok st2 ∧
      (∀ n v, alLookup st.container n = some v → ∃ v2, alLookup st2.container n = some v2) ∧
      (is_video b = false → alLookup st2.tempFiles ("temp_" ++ basename b) = none) := by
  cases hv : is_video b with
  | true =>
    refine ⟨st, by simp [processBlob, hv], fun n v h => ⟨v, h⟩, fun h => ?_⟩
    exact absurd h (by decide)
  | false =>
    obtain ⟨c2, fnd, hrun, hor⟩ :=
      analyzeLoop_noFail_ok service keywords ("temp_" ++ basename b) b st.container contents hc
        keywords
    refine ⟨⟨c2, alRemove (alUpsert st.tempFiles ("temp_" ++ basename b) contents)
        ("temp_" ++ basename b)⟩, ?_, ?_, fun _ => alLookup_remove_self _ _⟩
    · simp [processBlob, hv, noFail, hc, hrun]
    · intro n v h
      rcases hor with h2 | h2
      · exact ⟨v, by rw [h2]; exact h⟩
      · rw [h2]
        exact alLookup_upsert_pres _ _ _ _ _ h

theorem analyzeGo_noFail_ok (service : String → String → Except String VisionAnalysis)
    (keywords : List String) :
    ∀ (names : List String) (st : PipeState),
      (∀ n, n ∈ names → ∃ v, alLookup st.container n = some v) →
      ∃ st2, analyzeGo service noFail noFail keywords names st = Except.ok st2 := by
  intro names
  induction names with
  | nil => exact fun st _ => ⟨st, rfl⟩
  | cons b rest ih =>
    intro st hinv
    obtain ⟨v, hv⟩ := hinv b (List.mem_cons_self b rest)
    obtain ⟨st1, hrun, hpres, _⟩ := processBlob_noFail_ok service keywords b st v hv
    obtain ⟨st2, hrun2⟩ := ih st1 (fun n hn => by
      obtain ⟨w, hw⟩ := hinv n (List.mem_cons_of_mem b hn)
      exact hpres n w hw)
    exact ⟨st2, by simp [analyzeGo, hrun, hrun2]⟩

/-! ### Download-step lemmas -/

theorem strApp_cancel (a b c : String) (h : a ++ b = a ++ c) : b = c := by
  have hd : a.data ++ b.data = a.data ++ c.data := by
    simpa [String.data_append] using congrArg String.data h
  have hbc : b.data = c.data := List.append_cancel_left hd
  cases b; cases c
  exact congrArg String.mk hbc

theorem basenameChars_all_ne_slash :
    ∀ (l acc : List Char), (∀ c ∈ acc, c ≠ '/') →
      ∀ c ∈ l.foldl (fun a ch => if ch == '/' then [] else a ++ [ch]) acc, c ≠ '/' := by
  intro l
  induction l with
  | nil => intro acc hacc; simpa using hacc
  | cons ch t ih =>
    intro acc hacc
    rw [List.foldl_cons]
    apply ih
    by_cases h : ch = '/'
    · simp [h]
    · intro c hc
      rcases (by simpa [h] using hc : c ∈ acc ∨ c = ch) with hc1 | hc1
      · exact hacc c hc1
      · rw [hc1]; exact h

theorem basename_no_slash (s : String) : strStarts (basename s) "/" = false := by
  have h := basenameChars_all_ne_slash s.data []
    (fun c hc => absurd hc (List.not_mem_nil c))
  show listStarts "/".data (basenameChars s.data) = false
  cases hb : basenameChars s.data with
  | nil => rfl
  | cons c t =>
    have hc : c ≠ '/' := h c (by
      show c ∈ basenameChars s.data
      rw [hb]
      exact List.mem_cons_self _ _)
    show ('/' == c && listStarts [] t) = false
    simp [Ne.symm hc]

theorem pathJoin_inj (d f1 f2 : String) (h1 : strStarts f1 "/" = false)
    (h2 : strStarts f2 "/" = false) (he : pathJoin d f1 = pathJoin d f2) : f1 = f2 := by
  simp only [pathJoin, h1, h2, Bool.false_eq_true, if_false] at he
  by_cases hd : (d == "" || strEndsWithSlash d) = true
  · rw [if_pos hd, if_pos hd] at he
    exact strApp_cancel d f1 f2 he
  · rw [if_neg hd, if_neg hd] at he
    exact strApp_cancel (d ++ "/") f1 f2 he

theorem downloadGo_dirs (d : String) :
    ∀ (L : List (String × Bytes)) (fs : LocalFS), (downloadGo d L fs).dirs = fs.dirs := by
  intro L
  induction L with
  | nil => exact fun fs => rfl
  | cons e rest ih =>
    intro fs
    obtain ⟨name, contents⟩ := e
    simpa [downloadGo] using ih _

theorem downloadGo_untouched (d : String) :
    ∀ (L : List (String × Bytes)) (fs : LocalFS) (p : String),
      (∀ e ∈ L, p ≠ pathJoin d (basename e.1)) →
      alLookup (downloadGo d L fs).files p = alLookup fs.files p := by
  intro L
  induction L with
  | nil => exact fun fs p _ => rfl
  | cons e rest ih =>
    intro fs p hp
    obtain ⟨name, contents⟩ := e
    show alLookup (downloadGo d rest
      { fs with files := alUpsert fs.files (pathJoin d (basename name)) contents }).files p = _
    rw [ih _ p (fun e2 he2 => hp e2 (List.mem_cons_of_mem _ he2))]
    exact alLookup_upsert_ne _ _ _ _
      (fun heq => hp (name, contents) (List.mem_cons_self _ _) heq.symm)

theorem downloadGo_written (d : String) :
    ∀ (L : List (String × Bytes)) (fs : LocalFS) (n : String) (contents : Bytes),
      (n, contents) ∈ L →
      ∃ e, e ∈ L ∧ pathJoin d (basename e.1) = pathJoin d (basename n) ∧
        alLookup (downloadGo d L fs).files (pathJoin d (basename n)) = some e.2 := by
  intro L
  induction L with
  | nil => intro fs n c h; exact absurd h (List.not_mem_nil _)
  | cons hd2 rest ih =>
    intro fs n c hmem
    obtain ⟨m, bm⟩ := hd2
    by_cases hr : ∃ e2, e2 ∈ rest ∧ pathJoin d (basename e2.1) = pathJoin d (basename n)
    · obtain ⟨e2, he2, hpe⟩ := hr
      obtain ⟨e3, he3, hpe3, hlook⟩ :=
        ih { fs with files := alUpsert fs.files (pathJoin d (basename m)) bm } e2.1 e2.2
          (by simpa using he2)
      refine ⟨e3, List.mem_cons_of_mem _ he3, hpe3.trans hpe, ?_⟩
      show alLookup (downloadGo d rest
        { fs with files := alUpsert fs.files (pathJoin d (basename m)) bm }).files _ = _
      rw [← hpe]
      exact hlook
    · rcases List.mem_cons.mp hmem with heq | hmem2
      · obtain ⟨h1, h2⟩ : n = m ∧ c = bm := by
          constructor
          · exact congrArg Prod.fst heq
          · exact congrArg Prod.snd heq
        subst h1; subst h2
        refine ⟨(n, c), List.mem_cons_self _ _, rfl, ?_⟩
        show alLookup (downloadGo d rest
          { fs with files := alUpsert fs.files (pathJoin d (basename n)) c }).files _ = _
        rw [downloadGo_untouched d rest _ _
          (fun e2 he2 hcontra => hr ⟨e2, he2, hcontra.symm⟩)]
        exact alLookup_upsert_self _ _ _
      · exact absurd ⟨(n, c), hmem2, rfl⟩ hr

theorem analyzeLoop_const_tags (tagsOf : String → List String) (keywords : List String)
    (tp b : String) (c : Container) (contents : Bytes)
    (hc : alLookup c b = some contents) :
    ∀ rem : List String, rem ≠ [] →
      analyzeLoop (fun p _ => Except.ok ⟨tagsOf p, [], []⟩) noFail keywords tp b c rem =
        if tagsMatch keywords ((tagsOf tp).map strLower) then
          Except.ok (alUpsert c (TREE_FOLDER ++ basename b) contents, true)
        else Except.ok (c, false) := by
  intro rem
  induction rem with
  | nil => intro h; exact absurd rfl h
  | cons k rest ih =>
    intro _
    have htags : analyze_image_file (fun p _ => Except.ok ⟨tagsOf p, [], []⟩) tp k =
        (tagsOf tp).map strLower := rfl
    by_cases hm : tagsMatch keywords ((tagsOf tp).map strLower) = true
    · rw [if_pos hm]
      simp [analyzeLoop, htags, hm, move_blob_to_tree_folder, noFail, hc]
    · have hm2 : tagsMatch keywords ((tagsOf tp).map strLower) = false := by simpa using hm
      rw [if_neg hm]
      have hstep : analyzeLoop (fun p _ => Except.ok ⟨tagsOf p, [], []⟩) noFail keywords tp b c
          (k :: rest) =
          analyzeLoop (fun p _ => Except.ok ⟨tagsOf p, [], []⟩) noFail keywords tp b c rest := by
        simp [analyzeLoop, htags, hm2]
      rw [hstep]
      by_cases hrest : rest = []
      · subst hrest; rfl
      · rw [ih hrest, if_neg hm]

/-! ### Claim theorems -/

/-- Claim C9: for all filenames, `is_video` holds iff the lowercased
`os.path.splitext` extension is one of the five video extensions; in
particular `is_video "clip.MP4" = true` and `is_video "photo.jpg" = false`. -/
theorem C9_is_video_iff :
    (∀ name : String,
      is_video name = true ↔ strLower (splitext_ext name) ∈ VIDEO_EXTENSIONS) ∧
    is_video "clip.MP4" = true ∧ is_video "photo.jpg" = false := by
  refine ⟨fun name => ?_, by decide, by decide⟩
  unfold is_video
  constructor
  · intro h
    simpa [List.contains] using h
  · intro h
    simpa [List.contains] using h

/-- Claim C6: with every delete succeeding, the clean step deletes exactly
the blobs whose name does not start with `tree-pictures/`: the result is the
original container restricted to prefixed names, each untouched. -/
theorem C6_clean_exact :
    ∀ cont : Container,
      clean_blob_storage noFail cont =
        Except.ok (cont.filter fun e => strStarts e.1 TREE_FOLDER) := by
  intro cont
  rw [clean_blob_storage, cleanGo_noFail]
  congr 1
  apply List.filter_congr
  intro e he
  have hm : e.1 ∈ cont.map Prod.fst := List.mem_map_of_mem Prod.fst he
  simp [hm]

/-- Claim C4: whenever the vision service call raises, `analyze_image_file`
returns the empty tag list instead of propagating the exception. -/
theorem C4_classifier_error_is_empty
    (service : String → String → Except String VisionAnalysis)
    (path term msg : String) (h : service path term = Except.error msg) :
    analyze_image_file service path term = [] := by
  unfold analyze_image_file
  rw [h]

/-- Witness for C4 at a concrete always-failing service. -/
theorem C4_classifier_error_is_empty_witness :
    analyze_image_file (fun _ _ => Except.error "service down") "img.jpg" "tree" = [] :=
  C4_classifier_error_is_empty (fun _ _ => Except.error "service down") "img.jpg" "tree"
    "service down" rfl

/-- Claim C10: the move destination key is `tree-pictures/` plus the base
filename of the source, so two sources sharing a base filename are copied to
the same destination key and the later copy overwrites the earlier one. -/
theorem C10_move_dest_key :
    (∀ (n : String) (c : Container) (contents : Bytes),
      alLookup c n = some contents →
      move_blob_to_tree_folder noFail n c =
        Except.ok (alUpsert c (TREE_FOLDER ++ basename n) contents)) ∧
    move_blob_to_tree_folder noFail "a/x.jpg" [("a/x.jpg", [1]), ("b/x.jpg", [2])] =
      Except.ok [("a/x.jpg", [1]), ("b/x.jpg", [2]), ("tree-pictures/x.jpg", [1])] ∧
    move_blob_to_tree_folder noFail "b/x.jpg"
        [("a/x.jpg", [1]), ("b/x.jpg", [2]), ("tree-pictures/x.jpg", [1])] =
      Except.ok [("a/x.jpg", [1]), ("b/x.jpg", [2]), ("tree-pictures/x.jpg", [2])] := by
  refine ⟨fun n c contents h => ?_, rfl, rfl⟩
  simp [move_blob_to_tree_folder, noFail, h]

/-- Witness for C10 at a concrete container. -/
theorem C10_move_dest_key_witness :
    move_blob_to_tree_folder noFail "d/y.jpg" [("d/y.jpg", [9])] =
      Except.ok (alUpsert [("d/y.jpg", [9])] (TREE_FOLDER ++ basename "d/y.jpg") [9]) :=
  C10_move_dest_key.1 "d/y.jpg" [("d/y.jpg", [9])] [9] rfl

/-- Claim C3 counterexample: after `move_blob_to_tree_folder "a.jpg"`, the
blob still exists under its old name `a.jpg` (the move is a copy, so the
claim's "no longer under the old name" fails). -/
theorem C3_counterexample :
    move_blob_to_tree_folder noFail "a.jpg" [("a.jpg", [5])] =
      Except.ok [("a.jpg", [5]), ("tree-pictures/a.jpg", [5])] ∧
    alLookup [("a.jpg", [5]), ("tree-pictures/a.jpg", [5])] "a.jpg" = some [5] :=
  ⟨rfl, rfl⟩

/-- Claim C3 amended: blob partition is decided solely by the
`tree-pictures/` name prefix, and the move copies the blob to the prefixed
name with its bytes unchanged — but the source also remains under its old
name with the same bytes (server-side copy, not a rename). -/
theorem C3_amended_move_copies :
    (∀ n : String, strStarts n TREE_FOLDER = true ∨ strStarts n TREE_FOLDER = false) ∧
    (∀ (n : String) (c : Container) (contents : Bytes),
      alLookup c n = some contents →
      ∃ c2, move_blob_to_tree_folder noFail n c = Except.ok c2 ∧
        alLookup c2 (TREE_FOLDER ++ basename n) = some contents ∧
        alLookup c2 n = some contents) := by
  refine ⟨fun n => ?_, fun n c contents h => ?_⟩
  · cases hs : strStarts n TREE_FOLDER
    · exact Or.inr rfl
    · exact Or.inl rfl
  · refine ⟨alUpsert c (TREE_FOLDER ++ basename n) contents,
      by simp [move_blob_to_tree_folder, noFail, h], alLookup_upsert_self _ _ _, ?_⟩
    by_cases hd : TREE_FOLDER ++ basename n = n
    · rw [hd]
      exact alLookup_upsert_self _ _ _
    · rw [alLookup_upsert_ne _ _ _ _ hd]
      exact h

/-- Witness for the amended C3 at a concrete container. -/
theorem C3_amended_move_copies_witness :
    ∃ c2, move_blob_to_tree_folder noFail "pic.jpg" [("pic.jpg", [3])] = Except.ok c2 ∧
      alLookup c2 (TREE_FOLDER ++ basename "pic.jpg") = some [3] ∧
      alLookup c2 "pic.jpg" = some [3] :=
  C3_amended_move_copies.2 "pic.jpg" [("pic.jpg", [3])] [3] rfl

/-- Claim C2 counterexample: in the clean step a delete failure on the first
blob aborts the whole step (the exception propagates with both blobs still
present), instead of being skipped and processing continuing. -/
theorem C2_counterexample :
    clean_blob_storage (fun n => n == "a.jpg") [("a.jpg", [1]), ("b.jpg", [2])] =
      Except.error ("a.jpg", [("a.jpg", [1]), ("b.jpg", [2])]) := rfl

/-- Claim C2 amended: only the classifier call is individually wrapped, so
with storage calls succeeding the analyze step always completes no matter how
the vision service behaves (including raising); concretely, a classify
failure on `a.jpg` does not prevent `b.jpg` from being processed and moved.
Storage-call failures, by contrast, propagate and abort the step. -/
theorem C2_amended_classify_isolated :
    (∀ (service : String → String → Except String VisionAnalysis)
        (keywords : List String) (cont tmp : Container),
      ∃ st2, analyze_and_move_blobs service noFail noFail keywords ⟨cont, tmp⟩ =
        Except.ok st2) ∧
    analyze_and_move_blobs
        (fun p _ => if p == "temp_a.jpg" then Except.error "boom"
          else Except.ok ⟨["tree"], [], []⟩)
        noFail noFail ["tree"] ⟨[("a.jpg", [1]), ("b.jpg", [2])], []⟩ =
      Except.ok ⟨[("a.jpg", [1]), ("b.jpg", [2]), ("tree-pictures/b.jpg", [2])], []⟩ := by
  refine ⟨fun service keywords cont tmp => ?_, rfl⟩
  unfold analyze_and_move_blobs
  exact analyzeGo_noFail_ok service keywords _ _
    (fun n hn => alLookup_mem_fst cont n (List.mem_of_mem_filter hn))

/-- Claim C5 counterexample: when the server-side copy of a matched blob
raises, the exception propagates out of the analyze step before
`os.remove`, leaving the temporary file `temp_a.jpg` on disk. -/
theorem C5_counterexample :
    analyze_and_move_blobs (fun _ _ => Except.ok ⟨["tree"], [], []⟩) noFail (fun _ => true)
        ["tree"] ⟨[("a.jpg", [7])], []⟩ =
      Except.error ("a.jpg", ⟨[("a.jpg", [7])], [("temp_a.jpg", [7])]⟩) ∧
    alLookup [("temp_a.jpg", [7])] "temp_a.jpg" = some [7] :=
  ⟨rfl, rfl⟩

/-- Claim C5 amended: for a non-video blob, when the download and any copy
succeed, the temporary file is always deleted afterwards, whatever the
classifier does (match, no match, or a classification error). -/
theorem C5_amended_temp_deleted :
    ∀ (service : String → String → Except String VisionAnalysis)
      (keywords : List String) (b : String) (contents : Bytes) (cont tmp : Container),
      is_video b = false →
      alLookup cont b = some contents →
      ∃ st2, processBlob service noFail noFail keywords b ⟨cont, tmp⟩ = Except.ok st2 ∧
        alLookup st2.tempFiles ("temp_" ++ basename b) = none := by
  intro service keywords b contents cont tmp hv hc
  obtain ⟨st2, hrun, _, htmp⟩ := processBlob_noFail_ok service keywords b ⟨cont, tmp⟩ contents hc
  exact ⟨st2, hrun, htmp hv⟩

/-- Witness for the amended C5 with a failing classifier on a concrete blob. -/
theorem C5_amended_temp_deleted_witness :
    ∃ st2, processBlob (fun _ _ => Except.error "down") noFail noFail ["tree"] "a.jpg"
        ⟨[("a.jpg", [1])], []⟩ = Except.ok st2 ∧
      alLookup st2.tempFiles ("temp_" ++ basename "a.jpg") = none :=
  C5_amended_temp_deleted (fun _ _ => Except.error "down") ["tree"] "a.jpg" [1]
    [("a.jpg", [1])] [] rfl rfl

/-- Claim C1 counterexample: keyword matching is case-sensitive in the
keyword. `TREE` matches the tag `tree` case-insensitively, yet the run with
keywords `["TREE"]` moves nothing: `a.jpg` stays outside the folder and no
`tree-pictures/a.jpg` is created. -/
theorem C1_counterexample :
    strIsSubstr (strLower "TREE") "tree" = true ∧
    analyze_and_move_blobs (fun _ _ => Except.ok ⟨["tree"], [], []⟩) noFail noFail
        ["TREE"] ⟨[("a.jpg", [1])], []⟩ = Except.ok ⟨[("a.jpg", [1])], []⟩ :=
  ⟨rfl, rfl⟩

/-- Claim C1 amended: a non-video blob outside the folder is copied into the
folder iff some keyword, taken verbatim, is a substring of the lowercasing
of some tag the classifier returns for it (case-insensitive in the tag,
case-sensitive in the keyword); otherwise the container is unchanged. With
the spec's stub (tag `tree` for `a.jpg`, not for `b.jpg`) and keywords
`["tree"]`, `tree-pictures/a.jpg` exists and `b.jpg` stays outside. -/
theorem C1_amended_keyword_matching :
    (∀ (tagsOf : String → List String) (keywords : List String) (b : String)
        (contents : Bytes) (cont tmp : Container),
      is_video b = false →
      alLookup cont b = some contents →
      processBlob (fun p _ => Except.ok ⟨tagsOf p, [], []⟩) noFail noFail keywords b
          ⟨cont, tmp⟩ =
        if keywords.any (fun kw => (tagsOf ("temp_" ++ basename b)).any fun tag =>
            strIsSubstr kw (strLower tag)) then
          Except.ok ⟨alUpsert cont (TREE_FOLDER ++ basename b) contents,
            alRemove (alUpsert tmp ("temp_" ++ basename b) contents)
              ("temp_" ++ basename b)⟩
        else
          Except.ok ⟨cont, alRemove (alUpsert tmp ("temp_" ++ basename b) contents)
            ("temp_" ++ basename b)⟩) ∧
    analyze_and_move_blobs
        (fun p _ => if p == "temp_a.jpg" then Except.ok ⟨["tree"], [], []⟩
          else Except.ok ⟨["sky"], [], []⟩)
        noFail noFail ["tree"] ⟨[("a.jpg", [1]), ("b.jpg", [2])], []⟩ =
      Except.ok ⟨[("a.jpg", [1]), ("b.jpg", [2]), ("tree-pictures/a.jpg", [1])], []⟩ := by
  refine ⟨?_, rfl⟩
  intro tagsOf keywords b contents cont tmp hv hc
  cases keywords with
  | nil => simp [processBlob, hv, noFail, hc, analyzeLoop]
  | cons k ks =>
    have hne : (k :: ks : List String) ≠ [] := by simp
    have hloop := analyzeLoop_const_tags tagsOf (k :: ks) ("temp_" ++ basename b) b cont
      contents hc (k :: ks) hne
    have hcond : tagsMatch (k :: ks) ((tagsOf ("temp_" ++ basename b)).map strLower) =
        ((k :: ks).any fun kw => (tagsOf ("temp_" ++ basename b)).any fun tag =>
          strIsSubstr kw (strLower tag)) := tagsMatch_map_lower _ _
    rw [hcond] at hloop
    by_cases hm : ((k :: ks).any fun kw => (tagsOf ("temp_" ++ basename b)).any fun tag =>
        strIsSubstr kw (strLower tag)) = true
    · rw [if_pos hm]
      rw [hm, if_pos rfl] at hloop
      simp [processBlob, hv, noFail, hc, hloop]
    · have hm2 : ((k :: ks).any fun kw => (tagsOf ("temp_" ++ basename b)).any fun tag =>
          strIsSubstr kw (strLower tag)) = false := by simpa using hm
      rw [if_neg hm]
      rw [hm2] at hloop
      simp only [Bool.false_eq_true, if_false] at hloop
      simp [processBlob, hv, noFail, hc, hloop]

/-- Claim C7: the upload step uploads exactly the regular non-video directory
entries, each under its base filename and overwriting any existing object of
the same name (the stored bytes come from a matching directory entry);
objects whose name is a video name, or that match no regular entry, are
untouched, for every directory contents. -/
theorem C7_upload_exact :
    ∀ (dir : List (String × Bool × Bytes)) (cont : Container),
      (∀ n, is_video n = true →
        alLookup (upload_local_images dir cont) n = alLookup cont n) ∧
      (∀ n contents, (n, true, contents) ∈ dir → is_video n = false →
        ∃ c2, (n, true, c2) ∈ dir ∧
          alLookup (upload_local_images dir cont) n = some c2) ∧
      (∀ n, (∀ contents, (n, true, contents) ∉ dir) →
        alLookup (upload_local_images dir cont) n = alLookup cont n) := by
  intro dir
  induction dir with
  | nil =>
    intro cont
    exact ⟨fun n _ => rfl, fun n c h => absurd h (List.not_mem_nil _), fun n _ => rfl⟩
  | cons hd rest ih =>
    intro cont
    obtain ⟨f, isf, fc⟩ := hd
    refine ⟨?_, ?_, ?_⟩
    · intro n hv
      show alLookup (upload_local_images rest
        (if isf && !(is_video f) then alUpsert cont f fc else cont)) n = alLookup cont n
      rw [(ih _).1 n hv]
      by_cases hif : (isf && !(is_video f)) = true
      · rw [if_pos hif]
        refine alLookup_upsert_ne _ _ _ _ (fun hfn => ?_)
        subst hfn
        rw [hv] at hif
        simp at hif
      · rw [if_neg hif]
    · intro n contents hmem hv
      rcases List.mem_cons.mp hmem with heq | hmem2
      · injection heq with h1 h2
        injection h2 with h2 h3
        subst h1
        subst h2
        subst h3
        have hif : (true && !(is_video n)) = true := by
          rw [hv]
          rfl
        by_cases hrest : ∃ c2, (n, true, c2) ∈ rest
        · obtain ⟨c2, hc2⟩ := hrest
          obtain ⟨c3, hc3, hlook⟩ := (ih _).2.1 n c2 hc2 hv
          exact ⟨c3, List.mem_cons_of_mem _ hc3, by
            show alLookup (upload_local_images rest
              (if true && !(is_video n) then alUpsert cont n contents else cont)) n = some c3
            exact hlook⟩
        · refine ⟨contents, List.mem_cons_self _ _, ?_⟩
          show alLookup (upload_local_images rest
            (if true && !(is_video n) then alUpsert cont n contents else cont)) n = some contents
          rw [(ih _).2.2 n (fun c2 hc2 => hrest ⟨c2, hc2⟩), if_pos hif]
          exact alLookup_upsert_self _ _ _
      · obtain ⟨c2, hc2, hlook⟩ := (ih _).2.1 n contents hmem2 hv
        exact ⟨c2, List.mem_cons_of_mem _ hc2, hlook⟩
    · intro n hnone
      show alLookup (upload_local_images rest
        (if isf && !(is_video f) then alUpsert cont f fc else cont)) n = alLookup cont n
      rw [(ih _).2.2 n (fun c2 hc2 => hnone c2 (List.mem_cons_of_mem _ hc2))]
      by_cases hif : (isf && !(is_video f)) = true
      · rw [if_pos hif]
        refine alLookup_upsert_ne _ _ _ _ (fun hfn => ?_)
        subst hfn
        exact hnone fc (by
          have hisf : isf = true := (Bool.and_eq_true _ _).mp hif |>.1
          rw [hisf]
          exact List.mem_cons_self _ _)
      · rw [if_neg hif]

/-- Witness for C7 at a concrete directory listing with a video, a regular
image and a subdirectory entry. -/
theorem C7_upload_exact_witness :
    (∃ c2, ("a.jpg", true, c2) ∈ [("a.jpg", true, [1]), ("clip.mp4", true, [2])] ∧
      alLookup (upload_local_images [("a.jpg", true, [1]), ("clip.mp4", true, [2])] []) "a.jpg" =
        some c2) ∧
    alLookup (upload_local_images [("a.jpg", true, [1]), ("clip.mp4", true, [2])] []) "clip.mp4" =
      alLookup [] "clip.mp4" :=
  ⟨(C7_upload_exact [("a.jpg", true, [1]), ("clip.mp4", true, [2])] []).2.1 "a.jpg" [1]
      (List.mem_cons_self _ _) rfl,
    (C7_upload_exact [("a.jpg", true, [1]), ("clip.mp4", true, [2])] []).1 "clip.mp4" rfl⟩

/-- Claim C8: the download step creates the destination directory if absent
and retrieves exactly the blobs whose name starts with `tree-pictures/`,
writing each under its base filename joined to the destination directory
(under base-filename collisions the stored bytes come from a prefixed blob
with that base filename); every other local path is untouched. -/
theorem C8_download_exact :
    ∀ (cont : Container) (d : String) (fs : LocalFS),
      (download_tree_media cont d fs).dirs.contains d = true ∧
      (∀ n contents, (n, contents) ∈ cont → strStarts n TREE_FOLDER = true →
        ∃ n2 c2, (n2, c2) ∈ cont ∧ strStarts n2 TREE_FOLDER = true ∧
          basename n2 = basename n ∧
          alLookup (download_tree_media cont d fs).files (pathJoin d (basename n)) =
            some c2) ∧
      (∀ p, (∀ n contents, (n, contents) ∈ cont → strStarts n TREE_FOLDER = true →
          p ≠ pathJoin d (basename n)) →
        alLookup (download_tree_media cont d fs).files p = alLookup fs.files p) := by
  intro cont d fs
  refine ⟨?_, ?_, ?_⟩
  · show (downloadGo d (cont.filter fun e => strStarts e.1 TREE_FOLDER)
      { fs with dirs := if fs.dirs.contains d then fs.dirs
        else d :: fs.dirs }).dirs.contains d = true
    rw [downloadGo_dirs]
    by_cases hct : fs.dirs.contains d = true
    · show (if fs.dirs.contains d = true then fs.dirs else d :: fs.dirs).contains d = true
      rw [if_pos hct]
      exact hct
    · show (if fs.dirs.contains d = true then fs.dirs else d :: fs.dirs).contains d = true
      rw [if_neg hct]
      simp [List.contains]
  · intro n contents hmem htree
    have hmf : (n, contents) ∈ cont.filter (fun e => strStarts e.1 TREE_FOLDER) :=
      List.mem_filter.mpr ⟨hmem, htree⟩
    obtain ⟨e, he, hpe, hlook⟩ := downloadGo_written d
      (cont.filter fun e => strStarts e.1 TREE_FOLDER)
      { fs with dirs := if fs.dirs.contains d then fs.dirs else d :: fs.dirs }
      n contents hmf
    have h2 := List.mem_filter.mp he
    refine ⟨e.1, e.2, by simpa using h2.1, h2.2, ?_, ?_⟩
    · exact pathJoin_inj d (basename e.1) (basename n) (basename_no_slash _)
        (basename_no_slash _) hpe
    · exact hlook
  · intro p hp
    have hall : ∀ e2 ∈ cont.filter (fun e => strStarts e.1 TREE_FOLDER),
        p ≠ pathJoin d (basename e2.1) := by
      intro e2 he2
      have h2 := List.mem_filter.mp he2
      exact hp e2.1 e2.2 (by simpa using h2.1) h2.2
    exact downloadGo_untouched d _ _ p hall

/-- Witness for C8 at a concrete container with one prefixed and one
unprefixed blob. -/
theorem C8_download_exact_witness :
    ∃ n2 c2, (n2, c2) ∈ [("tree-pictures/a.jpg", [4]), ("b.jpg", [5])] ∧
      strStarts n2 TREE_FOLDER = true ∧ basename n2 = basename "tree-pictures/a.jpg" ∧
      alLookup (download_tree_media [("tree-pictures/a.jpg", [4]), ("b.jpg", [5])] "out"
        ⟨[], []⟩).files (pathJoin "out" (basename "tree-pictures/a.jpg")) = some c2 :=
  (C8_download_exact [("tree-pictures/a.jpg", [4]), ("b.jpg", [5])] "out" ⟨[], []⟩).2.1
    "tree-pictures/a.jpg" [4] (List.mem_cons_self _ _) rfl

/-- Witness for the amended C1: a matching lowercase keyword gets the blob
copied into the folder and the temp file removed. -/
theorem C1_amended_keyword_matching_witness :
    processBlob (fun p _ => Except.ok ⟨(fun _ => ["tree"]) p, [], []⟩) noFail noFail ["tree"]
        "x.jpg" ⟨[("x.jpg", [3])], []⟩ =
      Except.ok ⟨[("x.jpg", [3]), ("tree-pictures/x.jpg", [3])], []⟩ := by
  have h := C1_amended_keyword_matching.1 (fun _ => ["tree"]) ["tree"] "x.jpg" [3]
    [("x.jpg", [3])] [] rfl rfl
  exact h.trans (by rfl)
